import Mathlib

/-! Shallow embedding of `src/main.py` (degD/astar): the coordinate utilities,
the `Cell` record, maze loading, the `a_star_pathfind` search loop and the
coin accounting.  Python floats are idealised as real numbers; every numeric
comparison the program actually performs during a run compares a nonnegative
quantity against the `-1` sentinel, so no floating-point rounding behaviour is
observable and the idealisation is faithful. -/

/-- A grid position `(i, j)`: a pair of Python integers. -/
abbrev Pos : Type := Int × Int

namespace Coords

/-- Python `Coords.distance(i1, j1, i2, j2)` (main.py line 19):
`pow(pow(i1 - i2, 2) + pow(j1 - j2, 2), 1/2)`, the Euclidean distance.
The argument of the square root is a nonnegative integer, so `pow(x, 1/2)`
is the real square root. -/
noncomputable def distance (i1 j1 i2 j2 : Int) : ℝ :=
  Real.sqrt (((i1 - i2) ^ 2 + (j1 - j2) ^ 2 : ℤ) : ℝ)

/-- Python `Coords.is_valid(i, j, w, h)` (main.py line 32):
`0 <= i < h and 0 <= j < w`. -/
def is_valid (i j w h : Int) : Bool :=
  decide (0 ≤ i) && decide (i < h) && decide (0 ≤ j) && decide (j < w)

/-- Python `Coords.neighbors(i, j, w, h)` (main.py lines 47-53): the eight
candidate offsets, in the order they are written in the source tuple,
filtered by `is_valid`. -/
def neighbors (i j w h : Int) : List Pos :=
  ([(i + 1, j), (i + 1, j + 1),
    (i - 1, j), (i - 1, j - 1),
    (i, j + 1), (i + 1, j - 1),
    (i, j - 1), (i - 1, j + 1)] : List Pos).filter
    (fun q => is_valid q.1 q.2 w h)

end Coords

/-- Membership in `Coords.neighbors` is exactly: a valid position of the 3x3
block around `(i, j)` other than `(i, j)` itself. -/
lemma mem_neighbors (p : Pos) (i j w h : Int) :
    p ∈ Coords.neighbors i j w h ↔
      (p ≠ (i, j) ∧ (p.1 - i).natAbs ≤ 1 ∧ (p.2 - j).natAbs ≤ 1 ∧
        Coords.is_valid p.1 p.2 w h = true) := by
  obtain ⟨ni, nj⟩ := p
  simp only [Coords.neighbors, List.mem_filter, List.mem_cons, List.not_mem_nil, or_false,
    Prod.mk.injEq, ne_eq, not_and]
  constructor
  · rintro ⟨hmem, hval⟩
    refine ⟨?_, ?_, ?_, hval⟩ <;> omega
  · rintro ⟨hne, h1, h2, hval⟩
    refine ⟨?_, hval⟩
    omega

/-- A position is never a neighbor of itself. -/
lemma mem_neighbors_ne {p : Pos} {i j w h : Int}
    (hp : p ∈ Coords.neighbors i j w h) : p ≠ (i, j) :=
  ((mem_neighbors p i j w h).mp hp).1

/-- Python class `Cell` (main.py lines 59-77), field for field and in the
constructor's parameter order
`Cell(f, g, h, i, j, v, parent_cell, is_visited=False, is_open=True)`.
The `parent` reference to another live `Cell` object is modelled as the
parent's position (the cell dictionary is keyed by position), `None` as
`none`. -/
structure Cell where
  f : ℝ
  g : ℝ
  h : ℝ
  i : Int
  j : Int
  v : Char
  parent : Option Pos
  is_visited : Bool
  is_open : Bool

/-- The attributes of a `Maze` that `a_star_pathfind` reads:
`self.w`, `self.h`, `self.start_i`, `self.start_j`, `self.goal_i`,
`self.goal_j` (main.py lines 105-112). -/
structure MazeParams where
  w : Int
  h : Int
  start_i : Int
  start_j : Int
  goal_i : Int
  goal_j : Int

/-- The mutable state of one `a_star_pathfind` run: the cell dictionary
`self.maze` (a total function; the algorithm only ever reads keys that are
valid positions), the insertion counter `key`, and the heap `open_list`.
The binary heap of `heapq` is modelled as a list kept sorted by the tuple
order on `(f, key)`; since every pushed `key` is distinct the minimum is
unique and `heappop` is exactly "take the head". -/
structure SState where
  maze : Pos → Cell
  key : Nat
  open_list : List (ℝ × Nat × Pos)

section

open Classical

/-- Python `heapq.heappush(open_list, (f, key, cell))`: ordered insertion by
`(f, key)` into the sorted-list model of the heap. The stored cell reference
is modelled by the cell's position. -/
noncomputable def heapPush (e : ℝ × Nat × Pos) :
    List (ℝ × Nat × Pos) → List (ℝ × Nat × Pos)
  | [] => [e]
  | x :: xs =>
    if e.1 < x.1 ∨ (e.1 = x.1 ∧ e.2.1 < x.2.1) then e :: x :: xs
    else x :: heapPush e xs

/-- Python main.py lines 166-171: starting from the goal cell (whose parent
was just set), follow `parent` references and collect the cells until a cell
with `parent = None` is reached.  The walk reads the live objects, i.e. the
current cell dictionary.  `fuel` bounds the number of steps; every chain this
program builds has length 2, far below the fuel supplied at the call site. -/
def gen_path (maze : Pos → Cell) : Nat → Option Pos → List Cell
  | _, none => []
  | 0, some _ => []
  | fuel + 1, some p => maze p :: gen_path maze fuel (maze p).parent

/-- The body of the `for ni, nj in Coords.neighbors(...)` loop of
`a_star_pathfind` (main.py lines 157-203), processing the remaining neighbor
positions in order.  Returns `Sum.inl path` when the loop hits the goal and
the whole function returns early, `Sum.inr` with the updated state when the
loop runs to completion.  `cur` is the position of the popped `current` cell;
its live fields are read from the dictionary. -/
noncomputable def processNeighbors (m : MazeParams) (pf : Nat) (cur : Pos) :
    List Pos → SState → List Cell ⊕ SState
  | [], s => Sum.inr s
  | (ni, nj) :: rest, s =>
    let neighbor_cell := s.maze (ni, nj)
    if ni = m.goal_i ∧ nj = m.goal_j then
      -- goal discovered: set its parent to `current`, rebuild and return
      let goal_cell := { neighbor_cell with parent := some cur }
      let maze2 := Function.update s.maze (ni, nj) goal_cell
      Sum.inl (gen_path maze2 pf (some (ni, nj))).reverse
    else if (s.maze (ni, nj)).v = 'X' then
      -- wall: skip
      processNeighbors m pf cur rest s
    else
      let g := (s.maze cur).g + Coords.distance ni nj cur.1 cur.2
      let h := Coords.distance ni nj m.goal_i m.goal_j
      let f := g + h
      if neighbor_cell.is_open then
        -- open neighbor: update `f` and `parent` only on strict improvement
        if f < neighbor_cell.f then
          let cell1 := { neighbor_cell with f := f, parent := some cur }
          processNeighbors m pf cur rest
            { s with maze := Function.update s.maze (ni, nj) cell1 }
        else
          processNeighbors m pf cur rest s
      else if !neighbor_cell.is_visited then
        -- first encounter: set costs and parent, push onto the heap
        let cell2 := { neighbor_cell with f := f, g := g, h := h, parent := some cur }
        let key2 := s.key + 1
        processNeighbors m pf cur rest
          { maze := Function.update s.maze (ni, nj) cell2,
            key := key2,
            open_list := heapPush (cell2.f, key2, (ni, nj)) s.open_list }
      else
        -- visited: ignore
        processNeighbors m pf cur rest s

/-- The `while open_list:` loop of `a_star_pathfind` (main.py lines 149-208):
pop the minimum entry, clear its `is_open`, process its neighbors, then mark
it visited; return `[]` once the heap is empty.  `fuel` bounds the number of
iterations; the run proved below finishes in at most two. -/
noncomputable def searchLoop (m : MazeParams) (pf : Nat) :
    Nat → SState → List Cell
  | 0, _ => []
  | fuel + 1, s =>
    match s.open_list with
    | [] => []
    | (_, _, curPos) :: rest =>
      let popped := { s.maze curPos with is_open := false }
      let s1 : SState :=
        { s with maze := Function.update s.maze curPos popped,
                 open_list := rest }
      match processNeighbors m pf curPos
          (Coords.neighbors curPos.1 curPos.2 m.w m.h) s1 with
      | Sum.inl path => path
      | Sum.inr s2 =>
        let done := { s2.maze curPos with is_visited := true }
        searchLoop m pf fuel
          { s2 with maze := Function.update s2.maze curPos done }

/-- The initialization of `a_star_pathfind` (main.py lines 139-146):
`key = 0`, `start_cell.g = 0`, `start_cell.is_open = True`,
`heappush(open_list, (0, key, start_cell))`.  Note that only `g` and
`is_open` are touched; `f` and `h` keep their `-1` sentinel, and the pushed
priority is the literal `0`. -/
noncomputable def initState (m : MazeParams) (maze0 : Pos → Cell) : SState :=
  let start_cell := maze0 (m.start_i, m.start_j)
  let start_cell2 := { start_cell with g := 0, is_open := true }
  { maze := Function.update maze0 (m.start_i, m.start_j) start_cell2,
    key := 0,
    open_list := heapPush ((0 : ℝ), 0, (m.start_i, m.start_j)) [] }

/-- Python `Maze.a_star_pathfind` (main.py lines 129-208), acting on the cell
dictionary `maze0` built by `Maze.__init__`.  The fuel values are embedding
artifacts bounding the loop and the parent walk; the run lemmas below show
the loop stops within two iterations and the walk within two steps, so any
fuel at least `2` yields this same result. -/
noncomputable def a_star_pathfind (m : MazeParams) (maze0 : Pos → Cell) :
    List Cell :=
  searchLoop m (m.h.toNat * m.w.toNat + 2) (m.h.toNat * m.w.toNat + 2)
    (initState m maze0)

end

/-- One line of the maze file with its trailing character kept, as an element
of the list `fp.readlines()` yields (main.py line 99): a list of characters;
every line except possibly the last ends with a newline character. -/
abbrev FileRow : Type := List Char

/-- The inner `if c != '\n': maze_raw[i].append(c)` of the reading loop
(main.py lines 108-109): one row of `maze_raw`, the line with newline
characters dropped. -/
def stripNl (r : FileRow) : List Char :=
  r.filter (fun c => decide (c ≠ '\n'))

/-- The value of the loop variable `j` after the reading loop of
`Maze.__init__` finishes (main.py line 101): the enumeration index of the
last character of the last line that has any characters, available only if
some line is nonempty (otherwise `j` is unbound and line 112 raises).
Python leaves the variable at its last assigned value across iterations. -/
def finalJ (rows : List FileRow) : Option Nat :=
  match (rows.filter (fun r => decide (r ≠ []))).getLast? with
  | none => none
  | some r => some (r.length - 1)

/-- The running `self.start_i, self.start_j = i, j` (or goal) assignments of
the reading loop (main.py lines 104-107): the enumeration coordinates of the
last occurrence of `mark`, or `none` if the marker never occurs (in which
case the later attribute reads raise). -/
def scanMarker (mark : Char) (rows : List FileRow) : Option (Nat × Nat) :=
  rows.enum.foldl
    (fun acc ir =>
      ir.2.enum.foldl
        (fun acc2 jc => if jc.2 = mark then some (ir.1, jc.1) else acc2) acc)
    none

/-- The terrain character the cell dictionary stores at position `p`:
`maze_raw[i][j]` (main.py line 122).  Out-of-range reads raise in Python;
`buildCells` fails in exactly that case, so the default is never the value
of a cell the program creates or reads. -/
def cellVal (raw : List (List Char)) (p : Pos) : Char :=
  (raw.getD p.1.toNat []).getD p.2.toNat ' '

/-- The cell dictionary built at load time (main.py lines 119-122): for every
position, `Cell(-1, -1, -1, i, j, maze_raw[i][j], None)` with the constructor
defaults `is_visited=False` and, notably, `is_open=True`. -/
def mkCells (val : Pos → Char) : Pos → Cell :=
  fun p => ⟨-1, -1, -1, p.1, p.2, val p, none, false, true⟩

/-- The `for i, j in self.indexes: self.maze[(i, j)] = Cell(...)` loop
(main.py lines 119-122): succeeds with the cell dictionary iff every read
`maze_raw[i][j]` for `i < h`, `j < w` is in range; otherwise Python raises
an IndexError, modelled as `none`. -/
def buildCells (raw : List (List Char)) (w h : Nat) : Option (Pos → Cell) :=
  if ∀ i < h, ∀ j < w, j < (raw.getD i []).length
  then some (mkCells (cellVal raw))
  else none

/-- Python `str.isnumeric()` on the one maze-file character a cell stores
(main.py line 126).  On the characters a maze file row can hold this is
exactly the test for a decimal digit `'0'`-`'9'`. -/
def pyIsnumeric (c : Char) : Bool := c.isDigit

/-- Python `int(cell.v)` on a digit character (main.py line 126). -/
def pyInt (c : Char) : Nat := c.toNat - '0'.toNat

/-- Python `sum(int(cell.v) for cell in self.path if cell.v.isnumeric())`
(main.py line 126): the collected-coin total of a path. -/
def collectedCoins (path : List Cell) : Nat :=
  ((path.filter (fun c => pyIsnumeric c.v)).map (fun c => pyInt c.v)).sum

/-- Modelled from the spec (section 8, coin-total correctness), for the
refinement claim C6 only: the sum over the path of the integer value of each
terrain token that is a digit, every non-digit token contributing 0. -/
def specCoinSum (path : List Cell) : Nat :=
  (path.map (fun c => if c.v.isDigit then pyInt c.v else 0)).sum

/-- The load-time data `Maze.__init__` computes before running the search
(main.py lines 97-122). -/
structure LoadData where
  w : Int
  h : Int
  start_i : Int
  start_j : Int
  goal_i : Int
  goal_j : Int
  raw : List (List Char)
  deriving DecidableEq

/-- The loading part of `Maze.__init__` (main.py lines 97-122) on the list of
file lines: strip rows, record the last `S` and `G` occurrences, set
`self.w = j + 1` and `self.h = i + 1`, and build the cell dictionary.
Any Python exception on this path (unbound `i`/`j`, missing marker attribute,
IndexError while indexing `maze_raw`) is modelled as `none`. -/
def loadPhase (rows : List FileRow) : Option LoadData :=
  match finalJ rows, scanMarker 'S' rows, scanMarker 'G' rows with
  | some jf, some s0, some g0 =>
    let w : Nat := jf + 1
    let h : Nat := rows.length
    let raw := rows.map stripNl
    match buildCells raw w h with
    | some _ =>
      some ⟨(w : Int), (h : Int), (s0.1 : Int), (s0.2 : Int),
        (g0.1 : Int), (g0.2 : Int), raw⟩
    | none => none
  | _, _, _ => none

/-- The attributes of a fully constructed `Maze` object that the claims read:
the grid geometry, the search result `self.path`, and
`self.collected_coins` (main.py lines 112, 125-126). -/
structure Maze where
  w : Int
  h : Int
  start_i : Int
  start_j : Int
  goal_i : Int
  goal_j : Int
  path : List Cell
  collected_coins : Nat

/-- Python `Maze.__init__` (main.py lines 88-126) on the list of file lines:
load, then run `self.a_star_pathfind()` and total the coins. -/
noncomputable def ofLines (rows : List FileRow) : Option Maze :=
  match loadPhase rows with
  | none => none
  | some d =>
    let path := a_star_pathfind ⟨d.w, d.h, d.start_i, d.start_j, d.goal_i, d.goal_j⟩
      (mkCells (cellVal d.raw))
    some ⟨d.w, d.h, d.start_i, d.start_j, d.goal_i, d.goal_j,
      path, collectedCoins path⟩

/-- The snapshot of the start cell inside every nonempty returned path:
`g` was set to `0` at initialization, `is_open` cleared by the pop,
`f` and `h` still the `-1` sentinel, no parent, not yet marked visited. -/
def startCellFinal (m : MazeParams) (val : Pos → Char) : Cell :=
  ⟨-1, 0, -1, m.start_i, m.start_j, val (m.start_i, m.start_j), none, false, false⟩

/-- The snapshot of the goal cell inside every nonempty returned path: all
cost fields still the `-1` sentinel, parent just set to the start position,
`is_open` still at its allocation default `true`. -/
def goalCellFinal (m : MazeParams) (val : Pos → Char) : Cell :=
  ⟨-1, -1, -1, m.goal_i, m.goal_j, val (m.goal_i, m.goal_j),
    some (m.start_i, m.start_j), false, true⟩

/-- One 8-directional move: to a valid neighbor position that is not a wall.
This is the spec's notion of a legal step, used to state reachability in
claims C1 and C5. -/
def stepRel (val : Pos → Char) (w h : Int) (p q : Pos) : Prop :=
  q ∈ Coords.neighbors p.1 p.2 w h ∧ val q ≠ 'X'

/-- Reachability via 8-directional moves through non-wall cells (the spec's
"no wall separating start and goal"). -/
def Reaches (val : Pos → Char) (w h : Int) : Pos → Pos → Prop :=
  Relation.ReflTransGen (stepRel val w h)

/-- The 1-row, 5-column corridor maze of the spec's concrete scenario B,
file content `S123G` with no trailing newline. -/
def rowsB : List FileRow := [['S', '1', '2', '3', 'G']]

/-- The stripped grid of `rowsB` (identical, as it holds no newline). -/
def rawB : List (List Char) := [['S', '1', '2', '3', 'G']]

/-- A 1-row, 3-column maze `SXG`: the goal is separated from the start by a
wall, and every off-grid value is a wall as well. -/
def valS : Pos → Char :=
  fun p =>
    if p = ((0 : Int), (0 : Int)) then 'S'
    else if p = ((0 : Int), (1 : Int)) then 'X'
    else if p = ((0 : Int), (2 : Int)) then 'G'
    else 'X'

/-- Euclidean distances are nonnegative. -/
lemma distance_nonneg (i1 j1 i2 j2 : Int) : 0 ≤ Coords.distance i1 j1 i2 j2 :=
  Real.sqrt_nonneg _

/-- A parent walk over a two-cell chain (goal, then a parentless cell)
collects exactly those two cells, for any fuel of at least two. -/
lemma gen_path_two (mz : Pos → Cell) (k : Nat) (p q : Pos)
    (hpq : (mz p).parent = some q) (hq : (mz q).parent = none) :
    gen_path mz (k + 2) (some p) = [mz p, mz q] := by
  rw [show k + 2 = (k + 1) + 1 from rfl]
  rw [gen_path, hpq, gen_path, hq, gen_path]

/-- Expanding the start cell of a freshly initialized grid changes nothing
until the goal position is reached among the neighbors: every other neighbor
still carries its allocation state, whose `is_open = true` routes it into the
improvement test `f < -1`, which fails since `f` is a sum of nonnegative
distances.  If the goal position occurs, the loop returns the two-cell path
at once. -/
lemma processNeighbors_frozen (m : MazeParams) (k : Nat) (val : Pos → Char)
    (s : SState) (ns : List Pos)
    (hsg : (s.maze (m.start_i, m.start_j)).g = 0)
    (hsp : (s.maze (m.start_i, m.start_j)).parent = none)
    (ho : ∀ p, p ≠ (m.start_i, m.start_j) → s.maze p = mkCells val p)
    (hns : ∀ p ∈ ns, p ≠ (m.start_i, m.start_j)) :
    processNeighbors m (k + 2) (m.start_i, m.start_j) ns s =
      if (m.goal_i, m.goal_j) ∈ ns
      then Sum.inl [s.maze (m.start_i, m.start_j),
        { mkCells val (m.goal_i, m.goal_j) with
            parent := some (m.start_i, m.start_j) }]
      else Sum.inr s := by
  revert hns
  induction ns with
  | nil =>
    intro _
    simp [processNeighbors]
  | cons head rest ih =>
    intro hns
    obtain ⟨ni, nj⟩ := head
    have hne_start : ((ni, nj) : Pos) ≠ (m.start_i, m.start_j) :=
      hns _ (List.mem_cons_self _ _)
    have hns' : ∀ p ∈ rest, p ≠ (m.start_i, m.start_j) :=
      fun p hp => hns p (List.mem_cons_of_mem _ hp)
    by_cases hpair : ((ni, nj) : Pos) = (m.goal_i, m.goal_j)
    · have h1 : ni = m.goal_i := (Prod.ext_iff.mp hpair).1
      have h2 : nj = m.goal_j := (Prod.ext_iff.mp hpair).2
      have hmem : ((m.goal_i, m.goal_j) : Pos) ∈ ((ni, nj) :: rest : List Pos) := by
        rw [← hpair]
        exact List.mem_cons_self _ _
      have hsmaze : s.maze (ni, nj) = mkCells val (ni, nj) := ho _ hne_start
      simp only [processNeighbors]
      rw [if_pos ⟨h1, h2⟩, if_pos hmem]
      have hgp :
          gen_path
            (Function.update s.maze (ni, nj)
              { s.maze (ni, nj) with parent := some (m.start_i, m.start_j) })
            (k + 2) (some (ni, nj)) =
          [Function.update s.maze (ni, nj)
              { s.maze (ni, nj) with parent := some (m.start_i, m.start_j) }
              (ni, nj),
            Function.update s.maze (ni, nj)
              { s.maze (ni, nj) with parent := some (m.start_i, m.start_j) }
              (m.start_i, m.start_j)] := by
        apply gen_path_two
        · rw [Function.update_same]
        · rw [Function.update_noteq (Ne.symm hne_start)]
          exact hsp
      rw [hgp, Function.update_same, Function.update_noteq (Ne.symm hne_start)]
      simp only [List.reverse_cons, List.reverse_nil, List.nil_append,
        List.cons_append]
      rw [hsmaze, hpair]
    · have hcond : ¬(ni = m.goal_i ∧ nj = m.goal_j) := by
        intro hc
        exact hpair (Prod.ext hc.1 hc.2)
      have hmem_iff :
          (((m.goal_i, m.goal_j) : Pos) ∈ ((ni, nj) :: rest : List Pos)) ↔
            (((m.goal_i, m.goal_j) : Pos) ∈ rest) := by
        constructor
        · intro hm
          rcases List.mem_cons.mp hm with heq | hm'
          · exact absurd heq.symm hpair
          · exact hm'
        · exact fun hm => List.mem_cons_of_mem _ hm
      have hsmaze : s.maze (ni, nj) = mkCells val (ni, nj) := ho _ hne_start
      simp only [processNeighbors]
      rw [if_neg hcond]
      by_cases hX : (s.maze (ni, nj)).v = 'X'
      · rw [if_pos hX, ih hns', if_congr hmem_iff rfl rfl]
      · rw [if_neg hX, hsmaze]
        rw [if_pos (show (mkCells val (ni, nj)).is_open = true from rfl)]
        have key : ∀ x y : ℝ, 0 ≤ x → 0 ≤ y →
            ¬((s.maze (m.start_i, m.start_j)).g + x + y <
              (mkCells val (ni, nj)).f) := by
          intro x y hx hy
          rw [hsg, show (mkCells val (ni, nj)).f = -1 from rfl]
          intro hlt
          linarith
        rw [if_neg (key _ _ (distance_nonneg _ _ _ _) (distance_nonneg _ _ _ _))]
        rw [ih hns', if_congr hmem_iff rfl rfl]

/-- The loop returns the empty path as soon as the heap is empty. -/
lemma searchLoop_nil (m : MazeParams) (pf fuel : Nat) (s : SState)
    (hs : s.open_list = []) : searchLoop m pf (fuel + 1) s = [] := by
  rw [searchLoop, hs]

/-- One unfolding of the loop when the heap head is `(f0, k0, curPos)`. -/
lemma searchLoop_cons (m : MazeParams) (pf fuel : Nat) (s : SState)
    (f0 : ℝ) (k0 : Nat) (curPos : Pos) (rest : List (ℝ × Nat × Pos))
    (hs : s.open_list = (f0, k0, curPos) :: rest) :
    searchLoop m pf (fuel + 1) s =
      (match processNeighbors m pf curPos
          (Coords.neighbors curPos.1 curPos.2 m.w m.h)
          ⟨Function.update s.maze curPos { s.maze curPos with is_open := false },
            s.key, rest⟩ with
        | Sum.inl path => path
        | Sum.inr s2 =>
          searchLoop m pf fuel
            ⟨Function.update s2.maze curPos
                { s2.maze curPos with is_visited := true },
              s2.key, s2.open_list⟩) := by
  rw [searchLoop, hs]

/-- The run of `a_star_pathfind` on a freshly allocated cell dictionary, for
every maze: because every cell is allocated with `is_open = true`, the only
heap operations are the initial push of the start cell and its pop, so the
search returns the two-cell path `[start, goal]` when the goal position is
one of the start's valid neighbors and the empty path otherwise. -/
lemma a_star_run_eq (m : MazeParams) (val : Pos → Char) :
    a_star_pathfind m (mkCells val) =
      if (m.goal_i, m.goal_j) ∈ Coords.neighbors m.start_i m.start_j m.w m.h
      then [startCellFinal m val, goalCellFinal m val]
      else [] := by
  have hpush : heapPush ((0 : ℝ), 0, (m.start_i, m.start_j)) [] =
      [((0 : ℝ), 0, (m.start_i, m.start_j))] := by
    rw [heapPush]
  simp only [a_star_pathfind, initState]
  rw [hpush]
  have e1 :
      searchLoop m (m.h.toNat * m.w.toNat + 2) (m.h.toNat * m.w.toNat + 2)
        ⟨Function.update (mkCells val) (m.start_i, m.start_j)
            { mkCells val (m.start_i, m.start_j) with g := 0, is_open := true },
          0, [((0 : ℝ), 0, (m.start_i, m.start_j))]⟩ =
      (match processNeighbors m (m.h.toNat * m.w.toNat + 2) (m.start_i, m.start_j)
          (Coords.neighbors m.start_i m.start_j m.w m.h)
          ⟨Function.update
              (Function.update (mkCells val) (m.start_i, m.start_j)
                { mkCells val (m.start_i, m.start_j) with g := 0, is_open := true })
              (m.start_i, m.start_j)
              { Function.update (mkCells val) (m.start_i, m.start_j)
                  { mkCells val (m.start_i, m.start_j) with g := 0, is_open := true }
                  (m.start_i, m.start_j) with is_open := false },
            0, []⟩ with
        | Sum.inl path => path
        | Sum.inr s2 =>
          searchLoop m (m.h.toNat * m.w.toNat + 2) (m.h.toNat * m.w.toNat + 1)
            ⟨Function.update s2.maze (m.start_i, m.start_j)
                { s2.maze (m.start_i, m.start_j) with is_visited := true },
              s2.key, s2.open_list⟩) :=
    searchLoop_cons m (m.h.toNat * m.w.toNat + 2) (m.h.toNat * m.w.toNat + 1)
      _ 0 0 (m.start_i, m.start_j) [] rfl
  rw [e1]
  have hm1 : Function.update (mkCells val) (m.start_i, m.start_j)
      { mkCells val (m.start_i, m.start_j) with g := 0, is_open := true }
      (m.start_i, m.start_j) =
      { mkCells val (m.start_i, m.start_j) with g := 0, is_open := true } :=
    Function.update_same _ _ _
  rw [hm1]
  set s1 : SState :=
    ⟨Function.update
        (Function.update (mkCells val) (m.start_i, m.start_j)
          { mkCells val (m.start_i, m.start_j) with g := 0, is_open := true })
        (m.start_i, m.start_j)
        { { mkCells val (m.start_i, m.start_j) with g := 0, is_open := true }
            with is_open := false },
      0, []⟩ with hs1
  have s1sp : s1.maze (m.start_i, m.start_j) = startCellFinal m val := by
    rw [hs1]
    exact Function.update_same _ _ _
  have ho : ∀ p, p ≠ (m.start_i, m.start_j) → s1.maze p = mkCells val p := by
    intro p hp
    rw [hs1]
    show Function.update _ _ _ p = _
    rw [Function.update_noteq hp, Function.update_noteq hp]
  have e2 : processNeighbors m (m.h.toNat * m.w.toNat + 2) (m.start_i, m.start_j)
      (Coords.neighbors m.start_i m.start_j m.w m.h) s1 =
      if (m.goal_i, m.goal_j) ∈ Coords.neighbors m.start_i m.start_j m.w m.h
      then Sum.inl [s1.maze (m.start_i, m.start_j),
        { mkCells val (m.goal_i, m.goal_j) with
            parent := some (m.start_i, m.start_j) }]
      else Sum.inr s1 :=
    processNeighbors_frozen m (m.h.toNat * m.w.toNat) val s1
      (Coords.neighbors m.start_i m.start_j m.w m.h)
      (by rw [s1sp]; rfl) (by rw [s1sp]; rfl) ho
      (fun p hp => mem_neighbors_ne hp)
  rw [e2]
  by_cases hmem : ((m.goal_i, m.goal_j) : Pos) ∈
      Coords.neighbors m.start_i m.start_j m.w m.h
  · rw [if_pos hmem, if_pos hmem]
    show [s1.maze (m.start_i, m.start_j),
      { mkCells val (m.goal_i, m.goal_j) with
          parent := some (m.start_i, m.start_j) }] = _
    rw [s1sp]
    rfl
  · rw [if_neg hmem, if_neg hmem]
    show searchLoop m (m.h.toNat * m.w.toNat + 2) (m.h.toNat * m.w.toNat + 1)
      ⟨Function.update s1.maze (m.start_i, m.start_j)
          { s1.maze (m.start_i, m.start_j) with is_visited := true },
        s1.key, s1.open_list⟩ = []
    exact searchLoop_nil m _ (m.h.toNat * m.w.toNat) _ (by rw [hs1])

/-- The code's coin fold and the spec's coin fold agree on every cell list. -/
lemma coins_eq_spec (l : List Cell) : collectedCoins l = specCoinSum l := by
  induction l with
  | nil => rfl
  | cons c t ih =>
    simp only [collectedCoins, specCoinSum, pyIsnumeric, List.filter_cons,
      List.map_cons, List.sum_cons] at ih ⊢
    by_cases hd : c.v.isDigit = true
    · simp [hd, ih]
    · simp [hd, ih]

/-- C9: for every position and grid dimensions, `neighbors` returns exactly
the valid positions of the 3x3 block around `(i, j)` other than `(i, j)`
itself. -/
theorem claim_C9 (i j w h ni nj : Int) :
    ((ni, nj) : Pos) ∈ Coords.neighbors i j w h ↔
      (((ni, nj) : Pos) ≠ (i, j) ∧ (ni - i).natAbs ≤ 1 ∧ (nj - j).natAbs ≤ 1 ∧
        Coords.is_valid ni nj w h = true) :=
  mem_neighbors (ni, nj) i j w h

/-- C3: the state of every cell immediately after the cell grid is allocated:
`is_visited = false` and the `-1` sentinel on `f`, `g`, `h` as the claim
says, but `is_open = true` (the `Cell.__init__` default), not `false`. -/
theorem claim_C3 (val : Pos → Char) (p : Pos) :
    (mkCells val p).is_open = true ∧ (mkCells val p).is_visited = false ∧
      (mkCells val p).f = -1 ∧ (mkCells val p).g = -1 ∧ (mkCells val p).h = -1 :=
  ⟨rfl, rfl, rfl, rfl, rfl⟩

/-- C4: for every maze, the search result is the two-cell path
`[start, goal]` when the goal position is one of the valid neighbor positions
of the start, and the empty path otherwise; in particular the returned path
is nonempty exactly when the goal is 8-adjacent to the start. -/
theorem claim_C4 (m : MazeParams) (val : Pos → Char) :
    a_star_pathfind m (mkCells val) =
      (if (m.goal_i, m.goal_j) ∈ Coords.neighbors m.start_i m.start_j m.w m.h
        then [startCellFinal m val, goalCellFinal m val]
        else []) ∧
    (a_star_pathfind m (mkCells val) ≠ [] ↔
      ((m.goal_i, m.goal_j) : Pos) ∈
        Coords.neighbors m.start_i m.start_j m.w m.h) := by
  refine ⟨a_star_run_eq m val, ?_⟩
  rw [a_star_run_eq]
  by_cases hmem : ((m.goal_i, m.goal_j) : Pos) ∈
      Coords.neighbors m.start_i m.start_j m.w m.h
  · rw [if_pos hmem]
    simp [hmem]
  · rw [if_neg hmem]
    simp [hmem]

/-- C7: the moment the next neighbor position equals the goal position, the
expansion loop sets the goal cell's parent to the cell being expanded and
returns at once - whatever neighbors remain and whatever the frontier holds -
with the reversed parent walk that starts at the goal cell. -/
theorem claim_C7 (m : MazeParams) (pf : Nat) (cur : Pos) (rest : List Pos)
    (s : SState) :
    processNeighbors m pf cur (((m.goal_i, m.goal_j) : Pos) :: rest) s =
      Sum.inl (gen_path
        (Function.update s.maze (m.goal_i, m.goal_j)
          { s.maze (m.goal_i, m.goal_j) with parent := some cur })
        pf (some (m.goal_i, m.goal_j))).reverse := by
  simp only [processNeighbors]
  rw [if_pos ⟨trivial, trivial⟩]

/-- C5: whenever no 8-directional walk through non-wall cells joins start and
goal (the goal cell itself being a non-wall), the search returns the empty
path - by running the frontier dry, the `[]` of the exhausted loop - and the
collected-coin total is 0. -/
theorem claim_C5 (m : MazeParams) (val : Pos → Char)
    (hG : val (m.goal_i, m.goal_j) ≠ 'X')
    (hunreach : ¬ Reaches val m.w m.h (m.start_i, m.start_j)
      (m.goal_i, m.goal_j)) :
    a_star_pathfind m (mkCells val) = [] ∧
      collectedCoins (a_star_pathfind m (mkCells val)) = 0 := by
  have hnm : ((m.goal_i, m.goal_j) : Pos) ∉
      Coords.neighbors m.start_i m.start_j m.w m.h := by
    intro hmem
    exact hunreach (Relation.ReflTransGen.single ⟨hmem, hG⟩)
  constructor
  · rw [a_star_run_eq]
    exact if_neg hnm
  · rw [a_star_run_eq, if_neg hnm]
    rfl

/-- In the walled corridor `SXG` the goal is unreachable from the start: the
start's only valid neighbor is the wall. -/
lemma valS_unreachable : ¬ Reaches valS 3 1 ((0 : Int), (0 : Int)) (0, 2) := by
  intro hr
  rcases Relation.ReflTransGen.cases_head hr with heq | ⟨c, ⟨hmem, hX⟩, -⟩
  · exact absurd heq (by decide)
  · have hn : Coords.neighbors (0 : Int) (0 : Int) 3 1 = [((0 : Int), (1 : Int))] := by
      decide
    rw [hn] at hmem
    have hc : c = ((0 : Int), (1 : Int)) := by simpa using hmem
    rw [hc] at hX
    exact hX (by decide)

/-- C5 witness: the concrete maze `SXG` (goal walled off, hence unreachable)
satisfies the hypotheses of `claim_C5`, and the search on it returns the
empty path with coin total 0. -/
theorem claim_C5_witness :
    valS ((0 : Int), (2 : Int)) ≠ 'X' ∧
    ¬ Reaches valS 3 1 ((0 : Int), (0 : Int)) (0, 2) ∧
    (a_star_pathfind ⟨3, 1, 0, 0, 0, 2⟩ (mkCells valS) = [] ∧
      collectedCoins (a_star_pathfind ⟨3, 1, 0, 0, 0, 2⟩ (mkCells valS)) = 0) :=
  ⟨by decide, valS_unreachable,
    claim_C5 ⟨3, 1, 0, 0, 0, 2⟩ valS (by decide) valS_unreachable⟩

/-- C6: for every maze, the coin total the code computes over the returned
path equals the spec's sum - the integer value of every digit terrain token
on the path, all other tokens contributing 0. -/
theorem claim_C6 (m : MazeParams) (val : Pos → Char) :
    collectedCoins (a_star_pathfind m (mkCells val)) =
      specCoinSum (a_star_pathfind m (mkCells val)) :=
  coins_eq_spec _

/-- C8 (amended): initialization sets the start cell's `g` to `0`, marks it
open, and pushes the frontier entry with priority literal `0` and
insertion-order key `0`, while `h` and `f` are left at the `-1` sentinel
rather than being computed. -/
theorem claim_C8 (m : MazeParams) (val : Pos → Char) :
    ((initState m (mkCells val)).maze (m.start_i, m.start_j)).g = 0 ∧
    ((initState m (mkCells val)).maze (m.start_i, m.start_j)).is_open = true ∧
    ((initState m (mkCells val)).maze (m.start_i, m.start_j)).h = -1 ∧
    ((initState m (mkCells val)).maze (m.start_i, m.start_j)).f = -1 ∧
    (initState m (mkCells val)).open_list =
      [((0 : ℝ), 0, (m.start_i, m.start_j))] ∧
    (initState m (mkCells val)).key = 0 := by
  have hcell : (initState m (mkCells val)).maze (m.start_i, m.start_j) =
      { mkCells val (m.start_i, m.start_j) with g := 0, is_open := true } := by
    simp only [initState]
    exact Function.update_same _ _ _
  refine ⟨by rw [hcell], by rw [hcell], by rw [hcell]; rfl, by rw [hcell]; rfl,
    ?_, rfl⟩
  simp only [initState]
  rw [heapPush]

/-- C8 counterexample: on the concrete corridor maze `S123G`, right after
initialization the start cell's `h` is still `-1`, not the distance `4` to
the goal, so the claim "its h and f values are computed (h as distance to
goal, f = g + h)" is false at this input. -/
theorem claim_C8_counterexample :
    ¬ (((initState ⟨5, 1, 0, 0, 0, 4⟩ (mkCells (cellVal rawB))).maze
          ((0 : Int), (0 : Int))).h = Coords.distance 0 0 0 4 ∧
        ((initState ⟨5, 1, 0, 0, 0, 4⟩ (mkCells (cellVal rawB))).maze
          ((0 : Int), (0 : Int))).f =
          ((initState ⟨5, 1, 0, 0, 0, 4⟩ (mkCells (cellVal rawB))).maze
            ((0 : Int), (0 : Int))).g +
          ((initState ⟨5, 1, 0, 0, 0, 4⟩ (mkCells (cellVal rawB))).maze
            ((0 : Int), (0 : Int))).h) := by
  rintro ⟨h1, -⟩
  have hcell : (initState ⟨5, 1, 0, 0, 0, 4⟩ (mkCells (cellVal rawB))).maze
      ((0 : Int), (0 : Int)) =
      { mkCells (cellVal rawB) ((0 : Int), (0 : Int)) with
          g := 0, is_open := true } := by
    simp only [initState]
    exact Function.update_same _ _ _
  rw [hcell] at h1
  have hproj : ({ mkCells (cellVal rawB) ((0 : Int), (0 : Int)) with
      g := 0, is_open := true } : Cell).h = -1 := rfl
  rw [hproj] at h1
  have hd : Coords.distance 0 0 0 4 = 4 := by
    unfold Coords.distance
    have h16 : ((((0 : Int) - 0) ^ 2 + ((0 : Int) - 4) ^ 2 : ℤ) : ℝ) = 16 := by
      norm_num
    rw [h16, show (16 : ℝ) = 4 ^ 2 by norm_num]
    exact Real.sqrt_sq (by norm_num)
  rw [hd] at h1
  norm_num at h1

/-- C1 (code bug witnessed): the corridor maze `S123G` loads, its goal is
reachable from its start through non-wall cells, and yet the constructed
`Maze` carries the empty path: the goal is not 8-adjacent to the start, so
the broken open-cell bookkeeping never grows the frontier past the start
cell. -/
theorem claim_C1 :
    ∃ M, ofLines rowsB = some M ∧
      Reaches (cellVal rawB) 5 1 ((0 : Int), (0 : Int)) (0, 4) ∧
      M.path = [] := by
  have hload : loadPhase rowsB = some ⟨5, 1, 0, 0, 0, 4, rawB⟩ := by decide
  have hpath : a_star_pathfind ⟨5, 1, 0, 0, 0, 4⟩ (mkCells (cellVal rawB)) = [] := by
    rw [a_star_run_eq]
    exact if_neg (by decide)
  have hreach : Reaches (cellVal rawB) 5 1 ((0 : Int), (0 : Int)) (0, 4) := by
    have s1 : stepRel (cellVal rawB) 5 1 ((0 : Int), (0 : Int)) (0, 1) :=
      ⟨by decide, by decide⟩
    have s2 : stepRel (cellVal rawB) 5 1 ((0 : Int), (1 : Int)) (0, 2) :=
      ⟨by decide, by decide⟩
    have s3 : stepRel (cellVal rawB) 5 1 ((0 : Int), (2 : Int)) (0, 3) :=
      ⟨by decide, by decide⟩
    have s4 : stepRel (cellVal rawB) 5 1 ((0 : Int), (3 : Int)) (0, 4) :=
      ⟨by decide, by decide⟩
    exact Relation.ReflTransGen.head s1 (Relation.ReflTransGen.head s2
      (Relation.ReflTransGen.head s3 (Relation.ReflTransGen.single s4)))
  refine ⟨⟨5, 1, 0, 0, 0, 4, [], 0⟩, ?_, hreach, rfl⟩
  unfold ofLines
  rw [hload]
  dsimp only
  rw [hpath]
  rfl

/-- C2 (code bug witnessed): on the spec's concrete scenario B, the corridor
`S123G`, the constructed `Maze` holds the empty path and a coin total of `0`
instead of the claimed five-cell path with coin total `6`. -/
theorem claim_C2 :
    ∃ M, ofLines rowsB = some M ∧ M.path = [] ∧ M.collected_coins = 0 := by
  have hload : loadPhase rowsB = some ⟨5, 1, 0, 0, 0, 4, rawB⟩ := by decide
  have hpath : a_star_pathfind ⟨5, 1, 0, 0, 0, 4⟩ (mkCells (cellVal rawB)) = [] := by
    rw [a_star_run_eq]
    exact if_neg (by decide)
  refine ⟨⟨5, 1, 0, 0, 0, 4, [], 0⟩, ?_, rfl, rfl⟩
  unfold ofLines
  rw [hload]
  dsimp only
  rw [hpath]
  rfl

/-- C10: on any rectangular maze text (every line has the same positive
number of non-newline characters, newlines occurring only as line
terminators), the computed width is one plus the enumeration index of the
last character of the last line - the full length of that line, trailing
newline included.  Hence if the final line ends with a newline the cell-grid
build reads one column past the stripped rows and fails with the
out-of-range index, while a final line without a newline makes the build
succeed. -/
theorem claim_C10 (rows : List FileRow) (L : Nat) (hne : rows ≠ [])
    (hrect : ∀ r ∈ rows, (stripNl r).length = L) (hL : 1 ≤ L) :
    finalJ rows = some ((rows.getLast hne).length - 1) ∧
    ((rows.getLast hne).getLast? = some '\n' →
      buildCells (rows.map stripNl) ((rows.getLast hne).length)
        rows.length = none) ∧
    ('\n' ∉ rows.getLast hne →
      (buildCells (rows.map stripNl) ((rows.getLast hne).length)
        rows.length).isSome = true) := by
  have hner : ∀ r ∈ rows, r ≠ [] := by
    intro r hr hcontra
    have hzero := hrect r hr
    rw [hcontra] at hzero
    simp [stripNl] at hzero
    omega
  have hfilter : rows.filter (fun r => decide (r ≠ [])) = rows :=
    List.filter_eq_self.mpr (fun r hr => decide_eq_true (hner r hr))
  have hlmem : rows.getLast hne ∈ rows := List.getLast_mem hne
  have hllen : (stripNl (rows.getLast hne)).length = L := hrect _ hlmem
  have hidx : rows.length - 1 < rows.length := by
    have := List.length_pos.mpr hne
    omega
  have hraw : (rows.map stripNl).getD (rows.length - 1) [] =
      stripNl (rows.getLast hne) := by
    rw [List.getD_eq_getElem?_getD, List.getElem?_map,
      List.getElem?_eq_getElem hidx]
    rw [List.getLast_eq_getElem rows hne]
    rfl
  refine ⟨?_, ?_, ?_⟩
  · unfold finalJ
    rw [hfilter, List.getLast?_eq_getLast_of_ne_nil hne]
  · intro hNl
    have hlast_ne : rows.getLast hne ≠ [] := hner _ hlmem
    have hlastc : (rows.getLast hne).getLast hlast_ne = '\n' := by
      rw [List.getLast?_eq_getLast_of_ne_nil hlast_ne] at hNl
      exact Option.some_inj.mp hNl
    have hmemNl : '\n' ∈ rows.getLast hne :=
      hlastc ▸ List.getLast_mem hlast_ne
    have hlt : (stripNl (rows.getLast hne)).length <
        (rows.getLast hne).length := by
      apply List.length_filter_lt_length_iff_exists.mpr
      exact ⟨'\n', hmemNl, by simp⟩
    have hlen1 : L + 1 ≤ (rows.getLast hne).length := by
      rw [hllen] at hlt
      omega
    have hfail : ¬(∀ i < rows.length, ∀ j < (rows.getLast hne).length,
        j < ((rows.map stripNl).getD i []).length) := by
      intro hall
      have h2 := hall (rows.length - 1) hidx L (by omega)
      rw [hraw, hllen] at h2
      omega
    unfold buildCells
    rw [if_neg hfail]
  · intro hnoNl
    have hlast_eq : stripNl (rows.getLast hne) = rows.getLast hne :=
      List.filter_eq_self.mpr
        (fun c hc => decide_eq_true (fun heq => hnoNl (heq ▸ hc)))
    have hlen : (rows.getLast hne).length = L := hlast_eq ▸ hllen
    have hok : ∀ i < rows.length, ∀ j < (rows.getLast hne).length,
        j < ((rows.map stripNl).getD i []).length := by
      intro i hi j hj
      have hgd : (rows.map stripNl).getD i [] = stripNl rows[i] := by
        rw [List.getD_eq_getElem?_getD, List.getElem?_map,
          List.getElem?_eq_getElem hi]
        rfl
      rw [hgd, hrect _ (List.getElem_mem hi)]
      rw [hlen] at hj
      exact hj
    unfold buildCells
    rw [if_pos hok]
    rfl

/-- C10 witness: the single line `SG` followed by a newline is a rectangular
maze text of stripped width 2; the computed width is index 2 plus one, and
the cell-grid build fails. -/
theorem claim_C10_witness :
    finalJ [['S', 'G', '\n']] = some 2 ∧
    buildCells ([['S', 'G', '\n']].map stripNl) 3 1 = none := by
  obtain ⟨h1, h2, -⟩ :=
    claim_C10 [['S', 'G', '\n']] 2 (by decide) (by decide) (by decide)
  exact ⟨h1, h2 (by decide)⟩
